import Mathlib

/-!
Verification of the harmonic series summation program (harmonic_sum.cpp).

The program computes H(N) = 1/1 + 1/2 + ... + 1/N two ways:
a sequential loop running the index downward from N to 1, and a
task-parallel version that splits the index range into T contiguous
blocks, sums each block downward into a task-local accumulator, and
atomically adds each local sum into a shared global accumulator that is
read after a taskwait barrier.

Embedding choices: loop index values are natural numbers (the C types
are long long and int, and no reachable arithmetic overflows for the
inputs quantified here); floating-point doubles are modelled as exact
rationals; each loop is represented by the list of index values it
visits, in iteration order, so that iteration order and iteration count
are part of the model.
-/

namespace HarmonicSum

/-- Index values visited by the loop that runs i from hi down to lo
(for i = hi; i >= lo; i--), in iteration order. Empty when hi < lo. -/
def loopRange (lo hi : ℕ) : List ℕ :=
  (List.range' lo (hi + 1 - lo)).reverse

/-- The term added for loop index i: the value 1.0 / i. -/
def term (i : ℕ) : ℚ := 1 / (i : ℚ)

/-- One accumulator update of either reducer: sum += 1.0 / i. -/
def step (s : ℚ) (i : ℕ) : ℚ := s + term i

/-- Sequential reducer compute_harmonic_sequential: a single
accumulator initialised to 0, updated once per index from n down to 1. -/
def compute_harmonic_sequential (n : ℕ) : ℚ :=
  (loopRange 1 n).foldl step 0

/-- Partitioner block size: n / num_threads, truncating division. -/
def block_size (n t : ℕ) : ℕ := n / t

/-- Partitioner block k: start = k*block_size + 1,
end = n when k = t-1 and (k+1)*block_size otherwise. -/
def block (n t k : ℕ) : ℕ × ℕ :=
  (k * block_size n t + 1, if k = t - 1 then n else (k + 1) * block_size n t)

/-- The task blocks created by the parallel path, in creation order
k = 0, 1, ..., t-1. -/
def blocks (n t : ℕ) : List (ℕ × ℕ) :=
  (List.range t).map (block n t)

/-- Index values visited by one block task, in iteration order: the
task loop runs i from the block end down to the block start. -/
def blockIndices (b : ℕ × ℕ) : List ℕ := loopRange b.1 b.2

/-- Ascending list of the index values owned by a block; same elements
as blockIndices, used to state coverage of the partition. -/
def ivl (b : ℕ × ℕ) : List ℕ := List.range' b.1 (b.2 + 1 - b.1)

/-- Local sum of one block task: local accumulator initialised to 0,
updated once per index of the block, downward. -/
def block_sum (b : ℕ × ℕ) : ℚ :=
  (blockIndices b).foldl step 0

/-- Global accumulator value after the atomic additions of the given
block list have completed in the given order, starting from 0. -/
def runSchedule (sched : List (ℕ × ℕ)) : ℚ :=
  sched.foldl (fun g b => g + block_sum b) 0

/-- Parallel path compute_harmonic_parallel: the global accumulator
starts at 0, each task adds its local block sum exactly once, and the
value is read after all tasks complete. Blocks are folded in creation
order here; order independence is proved separately over arbitrary
completion schedules. -/
def compute_harmonic_parallel (n t : ℕ) : ℚ :=
  runSchedule (blocks n t)

/-! ### Helper lemmas -/

lemma loopRange_empty {lo hi : ℕ} (h : hi < lo) : loopRange lo hi = [] := by
  unfold loopRange
  have : hi + 1 - lo = 0 := by omega
  rw [this, List.range'_zero, List.reverse_nil]

lemma foldl_step_eq (l : List ℕ) (a : ℚ) :
    l.foldl step a = a + (l.map term).sum := by
  induction l generalizing a with
  | nil => simp
  | cons i l ih => simp [step, ih, add_assoc]

lemma foldl_addBlock_eq (l : List (ℕ × ℕ)) (a : ℚ) :
    l.foldl (fun g b => g + block_sum b) a = a + (l.map block_sum).sum := by
  induction l generalizing a with
  | nil => simp
  | cons b l ih => simp [ih, add_assoc]

lemma block_sum_eq_ivl (b : ℕ × ℕ) :
    block_sum b = ((ivl b).map term).sum := by
  rw [block_sum, foldl_step_eq, zero_add, blockIndices, loopRange,
    List.map_reverse, List.sum_reverse, ivl]

lemma sum_Icc_eq_list (f : ℕ → ℚ) (s e : ℕ) :
    ((List.range' s (e + 1 - s)).map f).sum = ∑ i ∈ Finset.Icc s e, f i := by
  rw [Nat.Icc_eq_range', Finset.sum_mk]
  simp [Multiset.map_coe, Multiset.sum_coe]

lemma blocks_length (n t : ℕ) : (blocks n t).length = t := by
  simp [blocks]

lemma block_size_mul_le (n t : ℕ) : (t - 1) * block_size n t ≤ n :=
  le_trans (Nat.mul_le_mul_right _ (Nat.sub_le t 1))
    (by rw [block_size, Nat.mul_comm]; exact Nat.div_mul_le_self n t)

lemma ivl_block_mid (n t j : ℕ) (hj : j ≠ t - 1) :
    ivl (block n t j) = List.range' (j * block_size n t + 1) (block_size n t) := by
  unfold ivl block
  simp only [hj, if_false]
  congr 1
  rw [add_one_mul]
  omega

lemma ivl_block_last (n t : ℕ) :
    ivl (block n t (t - 1)) =
      List.range' ((t - 1) * block_size n t + 1) (n - (t - 1) * block_size n t) := by
  unfold ivl block
  rw [if_pos rfl]
  congr 1
  omega

lemma cover_aux (n t : ℕ) :
    ∀ j, j ≤ t - 1 →
      ((List.range j).map (block n t)).flatMap ivl =
        List.range' 1 (j * block_size n t) := by
  intro j
  induction j with
  | zero => intro _; simp
  | succ j ih =>
    intro hj
    rw [List.range_succ, List.map_append, List.flatMap_append, ih (by omega)]
    simp only [List.map_cons, List.map_nil, List.flatMap_cons, List.flatMap_nil,
      List.append_nil]
    rw [ivl_block_mid n t j (by omega)]
    rw [show (j + 1) * block_size n t = block_size n t + j * block_size n t from by
      rw [add_one_mul, Nat.add_comm]]
    rw [show j * block_size n t + 1 = 1 + j * block_size n t from Nat.add_comm _ _]
    exact List.range'_append_1 1 (j * block_size n t) (block_size n t)

/-- The index values of all blocks, concatenated in block order, are
exactly 1, 2, ..., n in ascending order: the partition covers the range
with no gap, no overlap, and no index outside the range. -/
lemma cover (n t : ℕ) (ht : 1 ≤ t) :
    (blocks n t).flatMap ivl = List.range' 1 n := by
  rw [blocks,
    show List.range t = List.range (t - 1) ++ [t - 1] from by
      rw [← List.range_succ]; congr 1; omega,
    List.map_append, List.flatMap_append, cover_aux n t (t - 1) le_rfl]
  simp only [List.map_cons, List.map_nil, List.flatMap_cons, List.flatMap_nil,
    List.append_nil]
  rw [ivl_block_last n t,
    show (t - 1) * block_size n t + 1 = 1 + (t - 1) * block_size n t from
      Nat.add_comm _ _,
    List.range'_append_1 1 ((t - 1) * block_size n t) (n - (t - 1) * block_size n t)]
  congr 1
  have := block_size_mul_le n t
  omega

lemma runSchedule_eq_sum (sched : List (ℕ × ℕ)) :
    runSchedule sched = (sched.map block_sum).sum := by
  rw [runSchedule, foldl_addBlock_eq, zero_add]

lemma sum_blockSum_eq (l : List (ℕ × ℕ)) :
    (l.map block_sum).sum = ((l.flatMap ivl).map term).sum := by
  induction l with
  | nil => simp
  | cons b l ih =>
    simp [List.flatMap_cons, List.map_append, List.sum_append, ih, block_sum_eq_ivl]

lemma seq_eq_sum (n : ℕ) :
    compute_harmonic_sequential n = ((List.range' 1 n).map term).sum := by
  rw [compute_harmonic_sequential, foldl_step_eq, zero_add, loopRange,
    List.map_reverse, List.sum_reverse, Nat.add_sub_cancel]

/-- Exact-arithmetic agreement of the two paths: with rational values in
place of doubles, the parallel result equals the sequential result. -/
lemma par_eq_seq (n t : ℕ) (ht : 1 ≤ t) :
    compute_harmonic_parallel n t = compute_harmonic_sequential n := by
  rw [compute_harmonic_parallel, runSchedule_eq_sum, sum_blockSum_eq,
    cover n t ht, seq_eq_sum]

lemma seq_eq_Icc (n : ℕ) :
    compute_harmonic_sequential n = ∑ i ∈ Finset.Icc 1 n, term i := by
  rw [seq_eq_sum, show List.range' 1 n = List.range' 1 (n + 1 - 1) from by
    congr 1, sum_Icc_eq_list]

lemma block_sum_eq_Icc (s e : ℕ) :
    block_sum (s, e) = ∑ i ∈ Finset.Icc s e, term i := by
  rw [block_sum_eq_ivl]
  exact sum_Icc_eq_list term s e

lemma mem_loopRange {lo hi i : ℕ} (h : i ∈ loopRange lo hi) :
    lo ≤ i ∧ i ≤ hi := by
  unfold loopRange at h
  rw [List.mem_reverse, List.mem_range'_1] at h
  omega

lemma loopRange_head (lo hi : ℕ) (h : lo ≤ hi) :
    (loopRange lo hi).head? = some hi := by
  unfold loopRange
  rw [List.head?_reverse,
    show hi + 1 - lo = (hi - lo) + 1 from by omega, List.range'_concat,
    List.getLast?_concat]
  congr 1
  omega

lemma loopRange_getLast (lo hi : ℕ) (h : lo ≤ hi) :
    (loopRange lo hi).getLast? = some lo := by
  unfold loopRange
  rw [List.getLast?_reverse,
    show hi + 1 - lo = (hi - lo) + 1 from by omega, List.range'_succ]
  rfl

lemma term_nonneg (i : ℕ) : 0 ≤ term i := by
  unfold term
  exact div_nonneg zero_le_one (Nat.cast_nonneg i)

lemma term_pos {i : ℕ} (hi : 1 ≤ i) : 0 < term i := by
  unfold term
  exact div_pos zero_lt_one (by exact_mod_cast hi)

lemma scanl_cons_form (a : ℚ) (l : List ℕ) :
    ∃ r, List.scanl step a l = a :: r := by
  cases l <;> exact ⟨_, rfl⟩

lemma chain_scanl (l : List ℕ) (a : ℚ) :
    List.Chain' (· ≤ ·) (List.scanl step a l) := by
  induction l generalizing a with
  | nil => simp
  | cons i l ih =>
    rw [List.scanl_cons, List.singleton_append]
    obtain ⟨r, hr⟩ := scanl_cons_form (step a i) l
    rw [hr, List.chain'_cons']
    constructor
    · intro h hh
      simp only [List.head?_cons, Option.mem_def, Option.some.injEq] at hh
      rw [← hh, step]
      exact le_add_of_nonneg_right (term_nonneg i)
    · rw [← hr]
      exact ih (step a i)

lemma pos_scanl (l : List ℕ) (a : ℚ) (ha : 0 < a) :
    ∀ q ∈ List.scanl step a l, 0 < q := by
  induction l generalizing a with
  | nil =>
    intro q hq
    simp only [List.scanl_nil, List.mem_singleton] at hq
    exact hq ▸ ha
  | cons i l ih =>
    intro q hq
    rw [List.scanl_cons, List.singleton_append, List.mem_cons] at hq
    rcases hq with rfl | hq
    · exact ha
    · exact ih (step a i) (add_pos_of_pos_of_nonneg ha (term_nonneg i)) q hq

lemma tail_pos (l : List ℕ) (hl : ∀ i ∈ l, 1 ≤ i) :
    ∀ q ∈ (List.scanl step 0 l).tail, 0 < q := by
  cases l with
  | nil => intro q hq; simp at hq
  | cons i l =>
    intro q hq
    rw [List.scanl_cons, List.singleton_append, List.tail_cons] at hq
    have h1 : 0 < step 0 i := by
      rw [step, zero_add]
      exact term_pos (hl i (List.mem_cons_self i l))
    exact pos_scanl l (step 0 i) h1 q hq

/-! ### Claim theorems -/

/-- C1: for every N ≥ 1 and T ≥ 1 the Partitioner (block_size = N / T
truncating; block k has start k*block_size + 1 and end N for the last k
and (k+1)*block_size otherwise) produces exactly T blocks; the blocks
are pairwise disjoint; their index values concatenated in block order
are exactly 1, ..., N, so the union is the whole range with no gaps or
overlaps; and the remainder N mod T is absorbed entirely by the last
block, whose index count is block_size + N mod T. -/
theorem C1_partition_exact_cover (n t : ℕ) (hn : 1 ≤ n) (ht : 1 ≤ t) :
    (blocks n t).length = t ∧
    (blocks n t).flatMap ivl = List.range' 1 n ∧
    List.Pairwise (fun b c => List.Disjoint (ivl b) (ivl c)) (blocks n t) ∧
    block n t (t - 1) = ((t - 1) * block_size n t + 1, n) ∧
    (ivl (block n t (t - 1))).length = block_size n t + n % t := by
  refine ⟨blocks_length n t, cover n t ht, ?_, ?_, ?_⟩
  · have hnd : ((blocks n t).flatMap ivl).Nodup := by
      rw [cover n t ht]; exact List.nodup_range' ..
    exact (List.nodup_flatMap.mp hnd).2
  · rw [block, if_pos rfl]
  · rw [ivl_block_last, List.length_range']
    unfold block_size
    have h1 := block_size_mul_le n t
    unfold block_size at h1
    have h2 := Nat.div_add_mod n t
    have h3 : (t - 1) * (n / t) = t * (n / t) - n / t := Nat.sub_one_mul t (n / t)
    have h4 : n / t ≤ t * (n / t) := Nat.le_mul_of_pos_left _ (by omega)
    omega

theorem C1_partition_exact_cover_witness :
    (1 ≤ 5 ∧ 1 ≤ 2) ∧
    ((blocks 5 2).length = 2 ∧
      (blocks 5 2).flatMap ivl = List.range' 1 5 ∧
      List.Pairwise (fun b c => List.Disjoint (ivl b) (ivl c)) (blocks 5 2) ∧
      block 5 2 (2 - 1) = ((2 - 1) * block_size 5 2 + 1, 5) ∧
      (ivl (block 5 2 (2 - 1))).length = block_size 5 2 + 5 % 2) :=
  ⟨⟨by decide, by decide⟩, C1_partition_exact_cover 5 2 (by decide) (by decide)⟩

/-- C2: for a block with start ≥ 1 the Block Reducer returns the sum of
the terms 1/i for i from start to end, iterating the index downward
(the first index visited is end and the last is start); when
start > end the loop body never runs, so an empty block contributes
exactly 0 to the global sum. -/
theorem C2_block_reducer_sum (s e : ℕ) (hs : 1 ≤ s) :
    block_sum (s, e) = ∑ i ∈ Finset.Icc s e, term i ∧
    (s ≤ e → (blockIndices (s, e)).head? = some e ∧
      (blockIndices (s, e)).getLast? = some s) ∧
    (e < s → blockIndices (s, e) = [] ∧ block_sum (s, e) = 0) := by
  refine ⟨block_sum_eq_Icc s e,
    fun h => ⟨loopRange_head s e h, loopRange_getLast s e h⟩, fun h => ?_⟩
  refine ⟨loopRange_empty h, ?_⟩
  show (loopRange s e).foldl step 0 = 0
  rw [loopRange_empty h]
  rfl

theorem C2_block_reducer_sum_witness :
    1 ≤ 2 ∧
    (block_sum (2, 4) = ∑ i ∈ Finset.Icc 2 4, term i ∧
      (2 ≤ 4 → (blockIndices (2, 4)).head? = some 4 ∧
        (blockIndices (2, 4)).getLast? = some 2) ∧
      (4 < 2 → blockIndices (2, 4) = [] ∧ block_sum (2, 4) = 0)) :=
  ⟨by decide, C2_block_reducer_sum 2 4 (by decide)⟩

/-- C3: for every N ≥ 1 the Sequential Reducer computes the sum of 1/i
for i = 1 to N with a single accumulator, iterating the index downward
in one pass: the first index visited is N and the last is 1. -/
theorem C3_sequential_reducer_sum (n : ℕ) (hn : 1 ≤ n) :
    compute_harmonic_sequential n = ∑ i ∈ Finset.Icc 1 n, term i ∧
    (loopRange 1 n).head? = some n ∧ (loopRange 1 n).getLast? = some 1 :=
  ⟨seq_eq_Icc n, loopRange_head 1 n hn, loopRange_getLast 1 n hn⟩

theorem C3_sequential_reducer_sum_witness :
    1 ≤ 4 ∧
    (compute_harmonic_sequential 4 = ∑ i ∈ Finset.Icc 1 4, term i ∧
      (loopRange 1 4).head? = some 4 ∧ (loopRange 1 4).getLast? = some 1) :=
  ⟨by decide, C3_sequential_reducer_sum 4 (by decide)⟩

/-- C5 fails as stated: at N = 2, T = 3 the code yields the blocks
(1,0), (1,0), (1,2): one non-empty block of size 2 rather than N = 2
unit blocks, and 2 empty blocks rather than T - N = 1. -/
theorem C5_counterexample :
    blocks 2 3 = [(1, 0), (1, 0), (1, 2)] ∧
    ((blocks 2 3).filter fun b => b.1 ≤ b.2).length ≠ 2 ∧
    ((blocks 2 3).filter fun b => b.2 < b.1).length ≠ 3 - 2 := by decide

/-- C5 (amended): T = 1 produces the single block (1, N). For T > N the
block size is 0, so the Partitioner produces T - 1 empty blocks (1, 0)
followed by one final block equal to (1, N): exactly one non-empty
block carrying all N terms, not N unit blocks; every empty block
iterates zero times and contributes exactly 0. -/
theorem C5_degenerate_thread_counts (n t : ℕ) (hn : 1 ≤ n) (ht : n < t) :
    blocks n 1 = [(1, n)] ∧
    blocks n t = List.replicate (t - 1) (1, 0) ++ [(1, n)] ∧
    blockIndices (1, 0) = [] ∧ block_sum (1, 0) = 0 := by
  have hb1 : blocks n 1 = [(1, n)] := by
    rw [blocks, show List.range 1 = [0] from rfl, List.map_singleton, block]
    simp [block_size]
  have hbs : block_size n t = 0 := Nat.div_eq_of_lt ht
  have hmap : ∀ k, block n t k = (1, if k = t - 1 then n else 0) := by
    intro k
    rw [block, hbs]
    simp
  refine ⟨hb1, ?_, loopRange_empty (by omega), ?_⟩
  · rw [blocks,
      show List.range t = List.range (t - 1) ++ [t - 1] from by
        rw [← List.range_succ]; congr 1; omega,
      List.map_append]
    congr 1
    · rw [List.eq_replicate_iff]
      refine ⟨by simp, ?_⟩
      intro b hb
      rw [List.mem_map] at hb
      obtain ⟨k, hk, rfl⟩ := hb
      rw [List.mem_range] at hk
      rw [hmap k, if_neg (by omega)]
    · rw [List.map_singleton, hmap (t - 1), if_pos rfl]
  · show (loopRange 1 0).foldl step 0 = 0
    rw [loopRange_empty (by omega)]
    rfl

theorem C5_degenerate_thread_counts_witness :
    (1 ≤ 2 ∧ 2 < 5) ∧
    (blocks 2 1 = [(1, 2)] ∧
      blocks 2 5 = List.replicate (5 - 1) (1, 0) ++ [(1, 2)] ∧
      blockIndices (1, 0) = [] ∧ block_sum (1, 0) = 0) :=
  ⟨⟨by decide, by decide⟩, C5_degenerate_thread_counts 2 5 (by decide) (by decide)⟩

/-- C6 fails as stated: the code performs no input validation. With
N = 0 (violating N ≥ 1) and T = 1 the parallel path still partitions
the range, dispatches its single task, and returns 0 normally; no
invalid-argument signalling exists in the computation, whose result
type has no error case. -/
theorem C6_counterexample :
    (blocks 0 1).length = 1 ∧ compute_harmonic_parallel 0 1 = 0 :=
  ⟨by decide, (par_eq_seq 0 1 le_rfl).trans rfl⟩

/-- C6 (amended): invalid configurations are not rejected and not
signalled: for N = 0 the parallel path still creates and dispatches
exactly T tasks, every task loop is empty, and the value 0 is returned
normally. In the shipped program such inputs never arise, because main
calls the computation only with the hard-coded N = 10000000 and T = 4. -/
theorem C6_no_validation (n t : ℕ) (hn : n = 0) (ht : 1 ≤ t) :
    (blocks n t).length = t ∧ compute_harmonic_parallel n t = 0 := by
  subst hn
  refine ⟨blocks_length 0 t, ?_⟩
  rw [par_eq_seq 0 t ht]
  rfl

theorem C6_no_validation_witness :
    ((0 : ℕ) = 0 ∧ 1 ≤ 1) ∧
    ((blocks 0 1).length = 1 ∧ compute_harmonic_parallel 0 1 = 0) :=
  ⟨⟨rfl, by decide⟩, C6_no_validation 0 1 rfl (by decide)⟩

/-- C7: the global accumulator starts at 0 and each dispatched block
adds its local sum to it exactly once, after its own loop completes;
the atomic add and the taskwait barrier are modelled by letting the T
additions commit in an arbitrary completion order (any permutation of
the dispatched blocks) with the accumulator read only after the whole
fold: every completion order performs exactly T additions, one per
dispatched block, and yields the same final value that the parallel
path returns. -/
theorem C7_atomic_combine (n t : ℕ) (ht : 1 ≤ t) (sched : List (ℕ × ℕ))
    (hperm : sched.Perm (blocks n t)) :
    runSchedule sched = compute_harmonic_parallel n t ∧
    sched.length = t ∧
    (∀ b : ℕ × ℕ, sched.countP (fun c => decide (c = b)) =
      (blocks n t).countP (fun c => decide (c = b))) := by
  refine ⟨?_, by rw [hperm.length_eq, blocks_length],
    fun b => hperm.countP_eq (fun c => decide (c = b))⟩
  rw [runSchedule_eq_sum, compute_harmonic_parallel, runSchedule_eq_sum]
  exact List.Perm.sum_eq (hperm.map block_sum)

theorem C7_atomic_combine_witness :
    (1 ≤ 3 ∧ List.Perm [((4 : ℕ), (6 : ℕ)), (7, 10), (1, 3)] (blocks 10 3)) ∧
    (runSchedule [((4 : ℕ), (6 : ℕ)), (7, 10), (1, 3)] = compute_harmonic_parallel 10 3 ∧
      [((4 : ℕ), (6 : ℕ)), (7, 10), (1, 3)].length = 3 ∧
      (∀ b : ℕ × ℕ, [((4 : ℕ), (6 : ℕ)), (7, 10), (1, 3)].countP (fun c => decide (c = b)) =
        (blocks 10 3).countP (fun c => decide (c = b)))) :=
  ⟨⟨by decide, by decide⟩, C7_atomic_combine 10 3 (by decide) _ (by decide)⟩

/-- C8: no division by zero and no invalid term arises: every loop
index used as a divisor, in the sequential loop and in every block
loop, is at least 1; empty blocks (start greater than end) iterate zero
times; and both results are finite sums bounded above by N (each of the
at most N terms is at most 1). -/
theorem C8_no_division_by_zero (n t : ℕ) (hn : 1 ≤ n) (ht : 1 ≤ t) :
    (∀ i ∈ loopRange 1 n, 1 ≤ i) ∧
    (∀ b ∈ blocks n t, ∀ i ∈ blockIndices b, 1 ≤ i) ∧
    (∀ b ∈ blocks n t, b.2 < b.1 → blockIndices b = []) ∧
    compute_harmonic_sequential n ≤ n ∧ compute_harmonic_parallel n t ≤ n := by
  have hseq : compute_harmonic_sequential n ≤ n := by
    rw [seq_eq_Icc]
    calc ∑ i ∈ Finset.Icc 1 n, term i ≤ ∑ i ∈ Finset.Icc 1 n, (1 : ℚ) := by
          apply Finset.sum_le_sum
          intro i hi
          rw [Finset.mem_Icc] at hi
          have h1i : (1 : ℚ) ≤ (i : ℚ) := by exact_mod_cast hi.1
          rw [term, div_le_one (by linarith)]
          exact h1i
      _ = ((Finset.Icc 1 n).card : ℚ) := by rw [Finset.sum_const, nsmul_eq_mul, mul_one]
      _ = n := by rw [Nat.card_Icc]; norm_num
  refine ⟨fun i hi => (mem_loopRange hi).1, ?_, ?_, hseq,
    by rw [par_eq_seq n t ht]; exact hseq⟩
  · intro b hb i hi
    have h1 : i ∈ ivl b := by
      rw [← List.mem_reverse]
      exact hi
    have h2 : i ∈ (blocks n t).flatMap ivl := List.mem_flatMap.mpr ⟨b, hb, h1⟩
    rw [cover n t ht, List.mem_range'_1] at h2
    omega
  · intro b _ hlt
    exact loopRange_empty hlt

theorem C8_no_division_by_zero_witness :
    (1 ≤ 5 ∧ 1 ≤ 2) ∧
    ((∀ i ∈ loopRange 1 5, 1 ≤ i) ∧
      (∀ b ∈ blocks 5 2, ∀ i ∈ blockIndices b, 1 ≤ i) ∧
      (∀ b ∈ blocks 5 2, b.2 < b.1 → blockIndices b = []) ∧
      compute_harmonic_sequential 5 ≤ 5 ∧ compute_harmonic_parallel 5 2 ≤ 5) :=
  ⟨⟨by decide, by decide⟩, C8_no_division_by_zero 5 2 (by decide) (by decide)⟩

/-- C9: in both reducers the accumulator is monotonically
non-decreasing across loop iterations and strictly positive after at
least one term has been added: the trace of accumulator values (scanl
of the update over the iteration list, starting from 0) is a
non-decreasing chain, and every value after the initial 0 is positive,
for the sequential loop on any N ≥ 1 and for the loop of any block
with start ≥ 1. -/
theorem C9_accumulator_monotone (n s e : ℕ) (hn : 1 ≤ n) (hs : 1 ≤ s) :
    List.Chain' (· ≤ ·) (List.scanl step 0 (loopRange 1 n)) ∧
    (∀ q ∈ (List.scanl step 0 (loopRange 1 n)).tail, 0 < q) ∧
    List.Chain' (· ≤ ·) (List.scanl step 0 (blockIndices (s, e))) ∧
    (∀ q ∈ (List.scanl step 0 (blockIndices (s, e))).tail, 0 < q) :=
  ⟨chain_scanl _ 0, tail_pos _ (fun i hi => (mem_loopRange hi).1), chain_scanl _ 0,
    tail_pos _ (fun i hi => le_trans hs (mem_loopRange hi).1)⟩

theorem C9_accumulator_monotone_witness :
    (1 ≤ 3 ∧ 1 ≤ 2) ∧
    (List.Chain' (· ≤ ·) (List.scanl step 0 (loopRange 1 3)) ∧
      (∀ q ∈ (List.scanl step 0 (loopRange 1 3)).tail, 0 < q) ∧
      List.Chain' (· ≤ ·) (List.scanl step 0 (blockIndices (2, 4))) ∧
      (∀ q ∈ (List.scanl step 0 (blockIndices (2, 4))).tail, 0 < q)) :=
  ⟨⟨by decide, by decide⟩, C9_accumulator_monotone 3 2 4 (by decide) (by decide)⟩

/-- C10: invoked with one thread, the parallel path creates the single
block (1, N), whose descending loop visits exactly the same index
sequence as the sequential loop, performing the same additions in the
same order (whence bit-identical doubles in the source program), and
its result equals the sequential result exactly. -/
theorem C10_single_task_equals_sequential (n : ℕ) (hn : 1 ≤ n) :
    blocks n 1 = [(1, n)] ∧
    (blocks n 1).flatMap blockIndices = loopRange 1 n ∧
    compute_harmonic_parallel n 1 = compute_harmonic_sequential n := by
  have hb : blocks n 1 = [(1, n)] := by
    rw [blocks, show List.range 1 = [0] from rfl, List.map_singleton, block]
    simp [block_size]
  refine ⟨hb, ?_, par_eq_seq n 1 le_rfl⟩
  rw [hb]
  simp [blockIndices]

theorem C10_single_task_equals_sequential_witness :
    1 ≤ 5 ∧
    (blocks 5 1 = [(1, 5)] ∧
      (blocks 5 1).flatMap blockIndices = loopRange 1 5 ∧
      compute_harmonic_parallel 5 1 = compute_harmonic_sequential 5) :=
  ⟨by decide, C10_single_task_equals_sequential 5 (by decide)⟩

end HarmonicSum
